import Mathlib

/-!
Verification development for the wavefront computation repository
(`a3.c`, `state_array.c`).

The state array's `sum` fields are modelled as a `List Int` (row-major,
length `nrows * ncols`), matching the single static array in
`state_array.c`.  Index arithmetic, border seeding, the per-worker round
body, the stdout line stream, and the process exit status are translated
from the C source.  The reusable barrier (`barrier.c` is referenced by
the sources through `barrier.h` but is not part of the repository
snapshot) is modelled from the specification's description as a
generation-keyed transition system.
-/

namespace A3

/-- From `state_array.c`, `index(r, c)`: row-major linear index
`r * ncols + c`. -/
def index (ncols r c : Nat) : Nat := r * ncols + c

/-- From `state_array.c`, `E(index)`: east neighbor, `index + 1`. -/
def E (idx : Nat) : Nat := idx + 1

/-- From `state_array.c`, `S(index)`: south neighbor, `index + ncols`. -/
def S (ncols idx : Nat) : Nat := idx + ncols

/-- From `state_array.c`, `initBorders`: the sequence of array indices
written by the two seeding loops — first the whole last column
(`index(i, ncols-1)` for `i = 0 .. nrows-1`), then the last row except
its final cell (`index(nrows-1, i)` for `i = 0 .. ncols-2`). -/
def borderIdxs (nrows ncols : Nat) : List Nat :=
  ((List.range nrows).map fun i => index ncols i (ncols - 1)) ++
  ((List.range (ncols - 1)).map fun i => index ncols (nrows - 1) i)

/-- From `state_array.c`, `initBorders`: set the `sum` field of every
border element to 1, in the order the two loops visit them. -/
def initBorders (nrows ncols : Nat) (arr : List Int) : List Int :=
  (borderIdxs nrows ncols).foldl (fun a b => a.set b 1) arr

/-- From `state_array.c`, `resetStateArray`: set every `sum` field to 0. -/
def resetStateArray (arr : List Int) : List Int :=
  arr.map fun _ => 0

/-- From `a3.c`, `doWork` lines 245-255: with the three fetched neighbor
sums `e`, `s`, `es`, the worker writes `e + s + es` into its own cell
only when all three are non-zero; otherwise its cell is left unchanged. -/
def doWorkPublish (e s es : Int) (arr : List Int) (idx : Nat) : List Int :=
  if e ≠ 0 ∧ s ≠ 0 ∧ es ≠ 0 then arr.set idx (e + s + es) else arr

/-- Observable actions of one `doWork` round body after the three waits. -/
inductive WorkEvent
  | publish (idx : Nat) (v : Int)
  | broadcast (idx : Nat)
  | barrierArrive
  deriving DecidableEq

/-- From `a3.c`, `doWork` lines 245-258: the worker publishes and
broadcasts only under the all-non-zero guard, and reaches
`barrier_wait` unconditionally. -/
def doWorkRoundEvents (idx : Nat) (e s es : Int) : List WorkEvent :=
  (if e ≠ 0 ∧ s ≠ 0 ∧ es ≠ 0
    then [WorkEvent.publish idx (e + s + es), WorkEvent.broadcast idx]
    else []) ++ [WorkEvent.barrierArrive]

/-- From `a3.c`, `doWork` lines 213-259: one worker round over the
array, reading the east, south and southeast sums of its home index and
then running the guarded publish.  In the quiesced (sequential) view the
fetched sums are the cells' current values. -/
def doWorkRound (ncols idx : Nat) (arr : List Int) : List Int :=
  doWorkPublish (arr.getD (E idx) 0) (arr.getD (S ncols idx) 0)
    (arr.getD (E (S ncols idx)) 0) arr idx

/-- The wavefront recurrence measured by distance to the borders:
`waveValue i j` is the value of the cell `i` rows above the last row and
`j` columns left of the last column, with all border cells seeded to 1
and each interior cell the sum of its east, south and southeast
neighbors (the formula published by `doWork`). -/
def waveValue : Nat → Nat → Int
  | 0, _ => 1
  | _ + 1, 0 => 1
  | i + 1, j + 1 => waveValue (i + 1) j + waveValue i (j + 1) + waveValue i j

/-- A quiesced round of the computation: the array state captured by
`barrier_function` when every participant has arrived at the barrier.
Borders hold the seeded 1 (from `initBorders`) and every interior cell
holds the sum published by its worker (`doWork`'s formula). -/
def CompletedRound (nrows ncols : Nat) (arr : List Int) : Prop :=
  arr.length = nrows * ncols ∧
  (∀ r < nrows, ∀ c < ncols, (r + 1 = nrows ∨ c + 1 = ncols) →
    arr.getD (index ncols r c) 0 = 1) ∧
  (∀ r < nrows - 1, ∀ c < ncols - 1,
    arr.getD (index ncols r c) 0 =
      arr.getD (index ncols r (c + 1)) 0 +
      arr.getD (index ncols (r + 1) c) 0 +
      arr.getD (index ncols (r + 1) (c + 1)) 0)

end A3

namespace A3

theorem waveValue_2x2 : waveValue 1 1 = 3 := by simp [waveValue]

theorem waveValue_3x3 : waveValue 2 2 = 13 := by
  simp [waveValue]

theorem getD_set_one (arr : List Int) (b idx : Nat) :
    (arr.set b 1).getD idx 0 =
      if idx = b ∧ idx < arr.length then 1 else arr.getD idx 0 := by
  simp only [List.getD_eq_getElem?_getD, List.getElem?_set]
  by_cases h : idx = b
  · subst h
    by_cases hl : idx < arr.length
    · simp [hl]
    · rw [List.getElem?_eq_none (Nat.le_of_not_lt hl)]
      simp [hl]
  · have h' : ¬b = idx := fun hh => h hh.symm
    simp [h, h']

theorem foldl_set_one_getD (l : List Nat) (arr : List Int) (idx : Nat) :
    (l.foldl (fun a b => a.set b 1) arr).getD idx 0 =
      if idx ∈ l ∧ idx < arr.length then 1 else arr.getD idx 0 := by
  induction l generalizing arr with
  | nil => simp
  | cons b l ih =>
    simp only [List.foldl_cons, ih, List.length_set, getD_set_one, List.mem_cons]
    by_cases hl : idx < arr.length
    · by_cases hm : idx ∈ l
      · simp [hm, hl]
      · by_cases hb : idx = b
        · subst hb
          simp [hm, hl]
        · simp [hm, hl, hb]
    · simp [hl]

theorem index_lt {nrows ncols r c : Nat} (hr : r < nrows) (hc : c < ncols) :
    index ncols r c < nrows * ncols := by
  have h1 : r * ncols + c < (r + 1) * ncols := by
    rw [Nat.succ_mul]; omega
  have h2 : (r + 1) * ncols ≤ nrows * ncols := Nat.mul_le_mul_right ncols hr
  exact Nat.lt_of_lt_of_le h1 h2

theorem mem_borderIdxs {nrows ncols r c : Nat} (hr : r < nrows) (hc : c < ncols)
    (hb : r + 1 = nrows ∨ c + 1 = ncols) :
    index ncols r c ∈ borderIdxs nrows ncols := by
  unfold borderIdxs
  rw [List.mem_append]
  by_cases hcol : c + 1 = ncols
  · left
    rw [List.mem_map]
    exact ⟨r, List.mem_range.mpr hr, by simp [index]; omega⟩
  · right
    have hrow : r + 1 = nrows := hb.resolve_right hcol
    rw [List.mem_map]
    exact ⟨c, List.mem_range.mpr (by omega), by simp [index]; omega⟩

theorem borderIdxs_nodup {nrows ncols : Nat} (hc : 1 ≤ ncols) :
    (borderIdxs nrows ncols).Nodup := by
  unfold borderIdxs
  rw [List.nodup_append]
  refine ⟨?_, ?_, ?_⟩
  · refine List.Nodup.map ?_ (List.nodup_range nrows)
    intro i j hij
    simp only [index] at hij
    exact Nat.eq_of_mul_eq_mul_right (Nat.lt_of_lt_of_le Nat.zero_lt_one hc)
      (by omega : i * ncols = j * ncols)
  · refine List.Nodup.map ?_ (List.nodup_range (ncols - 1))
    intro i j hij
    simp only [index] at hij
    omega
  · intro x hx1 hx2
    rw [List.mem_map] at hx1 hx2
    obtain ⟨i, hi, hxi⟩ := hx1
    obtain ⟨j, hj, hxj⟩ := hx2
    rw [List.mem_range] at hi hj
    simp only [index] at hxi hxj
    have h1 : x % ncols = ncols - 1 := by
      rw [← hxi, Nat.add_comm, Nat.add_mul_mod_self_right]
      exact Nat.mod_eq_of_lt (by omega)
    have h2 : x % ncols = j := by
      rw [← hxj, Nat.add_comm, Nat.add_mul_mod_self_right]
      exact Nat.mod_eq_of_lt (by omega)
    omega

/-- Claim C5: immediately after `initBorders`, every border cell (cell
in the last row or last column, corner included) holds the value 1, and
each border cell is written exactly once per seeding pass (its index
occurs exactly once in the sequence of writes). -/
theorem initBorders_seeds_borders (nrows ncols : Nat) (arr : List Int)
    (_hr : 1 ≤ nrows) (hc : 1 ≤ ncols) (hlen : arr.length = nrows * ncols) :
    (∀ r < nrows, ∀ c < ncols, (r + 1 = nrows ∨ c + 1 = ncols) →
       (initBorders nrows ncols arr).getD (index ncols r c) 0 = 1) ∧
    (∀ r < nrows, ∀ c < ncols, (r + 1 = nrows ∨ c + 1 = ncols) →
       (borderIdxs nrows ncols).count (index ncols r c) = 1) := by
  constructor
  · intro r hrn c hcn hb
    unfold initBorders
    rw [foldl_set_one_getD]
    rw [if_pos ⟨mem_borderIdxs hrn hcn hb, by rw [hlen]; exact index_lt hrn hcn⟩]
  · intro r hrn c hcn hb
    exact List.count_eq_one_of_mem (borderIdxs_nodup hc) (mem_borderIdxs hrn hcn hb)

/-- Claim C5 witness: the 2 × 2 instance, seeded from the all-zero array. -/
theorem initBorders_seeds_borders_witness :
    (∀ r < 2, ∀ c < 2, (r + 1 = 2 ∨ c + 1 = 2) →
       (initBorders 2 2 [0, 0, 0, 0]).getD (index 2 r c) 0 = 1) ∧
    (∀ r < 2, ∀ c < 2, (r + 1 = 2 ∨ c + 1 = 2) →
       (borderIdxs 2 2).count (index 2 r c) = 1) :=
  initBorders_seeds_borders 2 2 [0, 0, 0, 0] (by decide) (by decide) (by decide)

/-- Claim C9: for a worker bound to an interior cell (`r + 1 < nrows`,
`c + 1 < ncols`), the three dependency indices computed in `doWork` —
`E(idx) = idx + 1`, `S(idx) = idx + ncols` and `S(idx) + 1` — are all in
range for the `nrows * ncols` state array. -/
theorem doWork_indices_in_bounds (nrows ncols r c : Nat)
    (hr : r + 1 < nrows) (hc : c + 1 < ncols) :
    E (index ncols r c) < nrows * ncols ∧
    S ncols (index ncols r c) < nrows * ncols ∧
    S ncols (index ncols r c) + 1 < nrows * ncols := by
  have he : E (index ncols r c) = index ncols r (c + 1) := by
    simp only [E, index]; omega
  have hs : S ncols (index ncols r c) = index ncols (r + 1) c := by
    simp only [S, index, Nat.succ_mul]; omega
  have hse : S ncols (index ncols r c) + 1 = index ncols (r + 1) (c + 1) := by
    simp only [S, index, Nat.succ_mul]; omega
  refine ⟨he ▸ index_lt (by omega) hc, hs ▸ index_lt hr (by omega),
    hse ▸ index_lt hr hc⟩

/-- Claim C9 witness: the sole interior cell of the 2 × 2 grid. -/
theorem doWork_indices_in_bounds_witness :
    E (index 2 0 0) < 2 * 2 ∧ S 2 (index 2 0 0) < 2 * 2 ∧
    S 2 (index 2 0 0) + 1 < 2 * 2 :=
  doWork_indices_in_bounds 2 2 0 0 (by decide) (by decide)

/-- Claim C1: an interior worker that publishes (all three fetched
neighbor sums non-zero) publishes exactly the sum of its east, south and
southeast neighbors' values for that round. -/
theorem interior_publish_eq_sum (nrows ncols r c : Nat) (arr : List Int)
    (hr : r + 1 < nrows) (hc : c + 1 < ncols) (hlen : arr.length = nrows * ncols)
    (hg : arr.getD (E (index ncols r c)) 0 ≠ 0 ∧
          arr.getD (S ncols (index ncols r c)) 0 ≠ 0 ∧
          arr.getD (E (S ncols (index ncols r c))) 0 ≠ 0) :
    (doWorkRound ncols (index ncols r c) arr).getD (index ncols r c) 0 =
      arr.getD (E (index ncols r c)) 0 +
      arr.getD (S ncols (index ncols r c)) 0 +
      arr.getD (E (S ncols (index ncols r c))) 0 := by
  have hidx : index ncols r c < arr.length := by
    rw [hlen]; exact index_lt (by omega) (by omega)
  unfold doWorkRound doWorkPublish
  rw [if_pos hg]
  simp [List.getD_eq_getElem?_getD, List.getElem?_set_self hidx]

/-- Claim C1 witness: the interior cell of the 2 × 2 grid with all three
border neighbors seeded to 1 publishes 3. -/
theorem interior_publish_eq_sum_witness :
    (([0, 1, 1, 1] : List Int).getD (E (index 2 0 0)) 0 ≠ 0 ∧
     ([0, 1, 1, 1] : List Int).getD (S 2 (index 2 0 0)) 0 ≠ 0 ∧
     ([0, 1, 1, 1] : List Int).getD (E (S 2 (index 2 0 0))) 0 ≠ 0) ∧
    (doWorkRound 2 (index 2 0 0) [0, 1, 1, 1]).getD (index 2 0 0) 0 =
      ([0, 1, 1, 1] : List Int).getD (E (index 2 0 0)) 0 +
      ([0, 1, 1, 1] : List Int).getD (S 2 (index 2 0 0)) 0 +
      ([0, 1, 1, 1] : List Int).getD (E (S 2 (index 2 0 0))) 0 :=
  ⟨⟨by decide, by decide, by decide⟩,
    interior_publish_eq_sum 2 2 0 0 [0, 1, 1, 1] (by decide) (by decide)
      (by decide) ⟨by decide, by decide, by decide⟩⟩

/-- Claim C10: when any fetched neighbor sum is zero, the worker leaves
its own cell unchanged, emits no publish and no broadcast, and still
arrives at the barrier. -/
theorem no_publish_when_zero (idx : Nat) (e s es : Int) (arr : List Int)
    (h : e = 0 ∨ s = 0 ∨ es = 0) :
    doWorkPublish e s es arr idx = arr ∧
    doWorkRoundEvents idx e s es = [WorkEvent.barrierArrive] := by
  have hg : ¬(e ≠ 0 ∧ s ≠ 0 ∧ es ≠ 0) := by tauto
  constructor
  · unfold doWorkPublish
    rw [if_neg hg]
  · unfold doWorkRoundEvents
    rw [if_neg hg]
    rfl

/-- Claim C10 witness: a zero east sum suppresses publish and broadcast
but not the barrier arrival. -/
theorem no_publish_when_zero_witness :
    doWorkPublish 0 1 1 [5] 0 = [5] ∧
    doWorkRoundEvents 0 0 1 1 = [WorkEvent.barrierArrive] :=
  no_publish_when_zero 0 0 1 1 [5] (Or.inl rfl)

theorem completed_round_values {nrows ncols : Nat} {arr : List Int}
    (h : CompletedRound nrows ncols arr) :
    ∀ n r c, r < nrows → c < ncols → (nrows - 1 - r) + (ncols - 1 - c) ≤ n →
      arr.getD (index ncols r c) 0 =
        waveValue (nrows - 1 - r) (ncols - 1 - c) := by
  obtain ⟨hlen, hborder, hint⟩ := h
  intro n
  induction n with
  | zero =>
    intro r c hr hc hd
    have hi : nrows - 1 - r = 0 := by omega
    have hj : ncols - 1 - c = 0 := by omega
    rw [hi, hj, hborder r hr c hc (Or.inl (by omega))]
    simp [waveValue]
  | succ n ih =>
    intro r c hr hc hd
    by_cases hb : r + 1 = nrows ∨ c + 1 = ncols
    · rw [hborder r hr c hc hb]
      rcases hb with h1 | h2
      · rw [show nrows - 1 - r = 0 by omega]
        simp [waveValue]
      · rw [show ncols - 1 - c = 0 by omega]
        cases hcase : nrows - 1 - r with
        | zero => simp [waveValue]
        | succ k => simp [waveValue]
    · push_neg at hb
      obtain ⟨h1, h2⟩ := hb
      rw [hint r (by omega) c (by omega)]
      rw [ih r (c + 1) (by omega) (by omega) (by omega),
        ih (r + 1) c (by omega) (by omega) (by omega),
        ih (r + 1) (c + 1) (by omega) (by omega) (by omega)]
      rw [show nrows - 1 - r = nrows - 1 - (r + 1) + 1 by omega,
        show ncols - 1 - c = ncols - 1 - (c + 1) + 1 by omega]
      simp [waveValue]

/-- Claim C2: the result captured by `barrier_function` for a round —
cell `(0,0)` of a quiesced (completed) round — equals the wavefront
recurrence with all borders seeded to 1; the value is the same for every
completed round of the same dimensions, hence identical across rounds;
and the recurrence gives 3 for `2 × 2` grids and 13 for `3 × 3` grids. -/
theorem reported_result_eq_recurrence (nrows ncols : Nat) (arr : List Int)
    (hr : 1 ≤ nrows) (hc : 1 ≤ ncols) (h : CompletedRound nrows ncols arr) :
    arr.getD 0 0 = waveValue (nrows - 1) (ncols - 1) ∧
    (∀ arr2 : List Int, CompletedRound nrows ncols arr2 →
      arr2.getD 0 0 = arr.getD 0 0) ∧
    waveValue 1 1 = 3 ∧ waveValue 2 2 = 13 := by
  have key : ∀ a : List Int, CompletedRound nrows ncols a →
      a.getD 0 0 = waveValue (nrows - 1) (ncols - 1) := by
    intro a ha
    have := completed_round_values ha ((nrows - 1) + (ncols - 1)) 0 0
      (by omega) (by omega) (by omega)
    simpa [index] using this
  refine ⟨key arr h, ?_, waveValue_2x2, waveValue_3x3⟩
  intro arr2 h2
  rw [key arr h, key arr2 h2]

/-- Claim C2 witness: the completed 2 × 2 round `[3, 1, 1, 1]`. -/
theorem reported_result_eq_recurrence_witness :
    ([3, 1, 1, 1] : List Int).getD 0 0 = waveValue (2 - 1) (2 - 1) ∧
    (∀ arr2 : List Int, CompletedRound 2 2 arr2 →
      arr2.getD 0 0 = ([3, 1, 1, 1] : List Int).getD 0 0) ∧
    waveValue 1 1 = 3 ∧ waveValue 2 2 = 13 :=
  reported_result_eq_recurrence 2 2 [3, 1, 1, 1] (by decide) (by decide)
    (by constructor
        · decide
        · constructor
          · decide
          · decide)

/-- From `state_array.c`, `waitOnNeighbor(index)` (lines 229-241): the
body is the unimplemented stub `return 42;`.  It ignores the state array
entirely. -/
def waitOnNeighbor (_idx : Nat) : Int := 42

/-- Claim C3 (refuted by the code): `waitOnNeighbor` is a stub returning
42 regardless of the cell's published sum.  After border seeding of the
2 × 2 array, cell 1 holds the published sum 1, yet `waitOnNeighbor 1`
returns 42 — contradicting the function's own doc comment ("return the
sum value"). -/
theorem waitOnNeighbor_ignores_cell :
    (initBorders 2 2 [0, 0, 0, 0]).getD 1 0 = 1 ∧
    waitOnNeighbor 1 = 42 ∧ ((42 : Int) ≠ 1) := by
  refine ⟨by decide, rfl, by decide⟩

/-- From `stdlib.h`: the exit codes used by `a3.c`. -/
def EXIT_SUCCESS : Int := 0

def EXIT_FAILURE : Int := 1

/-- From `a3.c`, `wavefront` (lines 103-105, 157-172): it returns
`EXIT_FAILURE` when `barrier_init` fails, when any `pthread_join` fails,
or when `barrier_destroy` fails, and `EXIT_SUCCESS` otherwise. -/
def wavefrontStatus (barrierInitOk joinsOk destroyOk : Bool) : Int :=
  if barrierInitOk = false then EXIT_FAILURE
  else if joinsOk = false then EXIT_FAILURE
  else if destroyOk = false then EXIT_FAILURE
  else EXIT_SUCCESS

/-- From `a3.c`, `main` (lines 41-54): it returns `EXIT_FAILURE` when
`argc ≠ 4`; otherwise it invokes `wavefront(...)` as a bare statement
and falls off the end of `main`, so `wavefront`'s status is discarded
and the process exits 0 (C99 implicit `return 0` from `main`). -/
def mainExit (argc : Nat) (_wstatus : Int) : Int :=
  if argc ≠ 4 then EXIT_FAILURE else 0

/-- Claim C6 (refuted by the code): a `pthread_join` failure makes
`wavefront` return `EXIT_FAILURE`, but `main` discards that status, so
the process exit code is 0 — not non-zero as claimed. -/
theorem main_exit_zero_on_join_failure :
    wavefrontStatus true false true = EXIT_FAILURE ∧
    mainExit 4 (wavefrontStatus true false true) = 0 ∧
    EXIT_FAILURE ≠ 0 := by
  refine ⟨rfl, rfl, by decide⟩

/-- One line of standard output. -/
inductive OutLine
  | arrLen (n : Nat)
  | initiating
  | borderIdx (i : Nat)
  | roundResult (r : Nat) (v : Int)
  deriving DecidableEq

/-- Rendering of each output line to its literal text, from the printf
format strings in `a3.c` and `state_array.c`. -/
def renderLine : OutLine → String
  | OutLine.arrLen n => s!"Initializing State Array. Arr len is {n}"
  | OutLine.initiating => "Initiating Borders"
  | OutLine.borderIdx i => s!"Initializing border idx {i}"
  | OutLine.roundResult r v => s!"Round {r}, result is {v}"

/-- From `state_array.c`, `initBorders` (lines 128-155): its printf
calls — the header line, then one line per border index in loop order. -/
def initBordersLines (nrows ncols : Nat) : List OutLine :=
  OutLine.initiating :: (borderIdxs nrows ncols).map OutLine.borderIdx

/-- From `a3.c`, `wavefront` loop (lines 147-153): each round's output —
the last arriver's `barrier_function` runs `initBorders` (which prints)
before the driver's round-result line. -/
def roundLines (nrows ncols : Nat) (res : Int) : Nat → List OutLine
  | 0 => []
  | r + 1 => roundLines nrows ncols res r ++
      initBordersLines nrows ncols ++ [OutLine.roundResult r res]

/-- From `a3.c`, `wavefront`: the full stdout stream of a run whose
rounds all converge to `res`: the `createStateArray` banner, the
pre-round-0 seeding lines, then the per-round lines. -/
def wavefrontLines (nrows ncols numRounds : Nat) (res : Int) : List OutLine :=
  OutLine.arrLen (nrows * ncols) :: initBordersLines nrows ncols ++
    roundLines nrows ncols res numRounds

/-- Is this line a round-result line? -/
def isRoundLine : OutLine → Bool
  | OutLine.roundResult _ _ => true
  | _ => false

/-- Claim C7 (refuted by the code): the output is not one line per round
and nothing else — for a 2 × 2 grid and a single round the stream has 10
lines (creation banner and border-seeding diagnostics besides the one
round line). -/
theorem stdout_has_extra_lines :
    wavefrontLines 2 2 1 3 ≠ [OutLine.roundResult 0 3] ∧
    (wavefrontLines 2 2 1 3).length = 10 := by
  refine ⟨by decide, by decide⟩

/-- Claim C7 amended: the stream contains exactly one round-result line
per round, in round order and in the literal form
`Round <r>, result is <value>`; the remaining lines are the creation
banner and the border-seeding diagnostics. -/
theorem one_round_line_per_round (nrows ncols numRounds : Nat) (res : Int) :
    (wavefrontLines nrows ncols numRounds res).filter isRoundLine =
      (List.range numRounds).map (fun r => OutLine.roundResult r res) ∧
    (∀ r v, renderLine (OutLine.roundResult r v) =
      s!"Round {r}, result is {v}") := by
  constructor
  · have hinit : (initBordersLines nrows ncols).filter isRoundLine = [] := by
      simp [initBordersLines, isRoundLine, List.filter_map, Function.comp]
    unfold wavefrontLines
    rw [List.filter_append]
    have harr : List.filter isRoundLine
        (OutLine.arrLen (nrows * ncols) :: initBordersLines nrows ncols) = [] := by
      rw [List.filter_cons]
      simp [isRoundLine, hinit]
    rw [harr, List.nil_append]
    induction numRounds with
    | zero => simp [roundLines]
    | succ n ih =>
      rw [roundLines, List.filter_append, List.filter_append, hinit, ih,
        List.range_succ, List.map_append]
      simp [isRoundLine]
  · intro r v
    rfl

/-- Events of `createStateArray`. -/
inductive CreateEvent
  | alloc (ok : Bool)
  | initCell (i : Nat)
  | report
  deriving DecidableEq

/-- From `state_array.c`, `createStateArray` (lines 54-71): `malloc`,
then — with no check of the allocation result — a loop initializing all
`nrows * ncols` cells.  The trace does not depend on whether the
allocation succeeded and never contains an error report. -/
def createStateArrayTrace (nrows ncols : Nat) (allocOk : Bool) : List CreateEvent :=
  CreateEvent.alloc allocOk ::
    (List.range (nrows * ncols)).map CreateEvent.initCell

/-- Claim C8 (refuted by the code): when the allocation for a 2 × 2
table fails, `createStateArray` still runs the initialization loop over
all four cells and reports no error. -/
theorem createStateArray_ignores_alloc_failure :
    createStateArrayTrace 2 2 false =
      CreateEvent.alloc false ::
        [CreateEvent.initCell 0, CreateEvent.initCell 1,
         CreateEvent.initCell 2, CreateEvent.initCell 3] ∧
    CreateEvent.report ∉ createStateArrayTrace 2 2 false := by
  refine ⟨by decide, by decide⟩

end A3

namespace BarrierModel

/-- Modelled from the spec: the repository's `barrier.c` is referenced
by the sources through `barrier.h` but is not part of the snapshot, so
the reusable barrier is modelled from §4.2 of the specification.  A
participant's phase records how many barrier cycles it has completed;
`waiting k obs` means it has arrived for cycle `k` after observing
generation `obs`. -/
inductive Phase
  | working (k : Nat)
  | waiting (k : Nat) (obs : Nat)
  deriving DecidableEq

/-- Modelled from the spec: the barrier's shared state (`generation`,
`arrived`, count of completed last-arriver action executions) together
with the phases of the participants — one list entry per participant,
the list length being the configured capacity. -/
structure Sys where
  gen : Nat
  arrived : Nat
  actions : Nat
  phases : List Phase
  deriving DecidableEq

/-- Modelled from the spec: the initial state — generation 0, no
arrivals, no actions run, every participant about to enter cycle 0. -/
def initSys (capacity : Nat) : Sys :=
  ⟨0, 0, 0, List.replicate capacity (Phase.working 0)⟩

/-- Does this phase belong to a participant arrived and waiting for
cycle `g`? -/
def isCurWaiter (g : Nat) : Phase → Bool
  | Phase.waiting k _ => k = g
  | _ => false

/-- Modelled from the spec (§4.2 `wait()` contract): the atomic
transitions of the barrier, all run under the barrier's lock — a
non-final arrival (increment `arrived`, record the observed generation
and block); the final arrival (run the last-arriver action, reset
`arrived` to 0, increment `generation`, wake all waiters and proceed);
and the wake-up of a blocked participant once the generation differs
from the value it observed at entry. -/
inductive Step : Sys → Sys → Prop
  | arrive (s : Sys) (t k : Nat) :
      s.phases[t]? = some (Phase.working k) →
      s.arrived + 1 < s.phases.length →
      Step s ⟨s.gen, s.arrived + 1, s.actions,
        s.phases.set t (Phase.waiting k s.gen)⟩
  | lastArrive (s : Sys) (t k : Nat) :
      s.phases[t]? = some (Phase.working k) →
      s.arrived + 1 = s.phases.length →
      Step s ⟨s.gen + 1, 0, s.actions + 1,
        s.phases.set t (Phase.working (k + 1))⟩
  | release (s : Sys) (t k obs : Nat) :
      s.phases[t]? = some (Phase.waiting k obs) →
      obs ≠ s.gen →
      Step s ⟨s.gen, s.arrived, s.actions,
        s.phases.set t (Phase.working (k + 1))⟩

/-- States reachable from the initial state. -/
inductive Reachable (capacity : Nat) : Sys → Prop
  | init : Reachable capacity (initSys capacity)
  | step (s s' : Sys) : Reachable capacity s → Step s s' →
      Reachable capacity s'

/-- The barrier invariant: the participant list has the configured
capacity; a participant that has completed `k` cycles and is not waiting
has `k` equal to the current generation (so nobody is ever past a cycle
whose generation has not advanced); a waiter's recorded observation is
the generation of its own cycle (the wait predicate is keyed on the
generation it observed), and a waiter is waiting either for the current
cycle or for the cycle that has just completed; `arrived` counts exactly
the participants waiting for the current cycle (a left-over waiter of
the previous cycle never contributes to the new count); and the
last-arriver action has run exactly once per completed generation. -/
def Inv (capacity : Nat) (s : Sys) : Prop :=
  s.phases.length = capacity ∧
  (∀ (t k : Nat), s.phases[t]? = some (Phase.working k) → k = s.gen) ∧
  (∀ (t k obs : Nat), s.phases[t]? = some (Phase.waiting k obs) →
    obs = k ∧ (k = s.gen ∨ k + 1 = s.gen)) ∧
  s.arrived = s.phases.countP (isCurWaiter s.gen) ∧
  s.actions = s.gen

theorem countP_set_add {α} (p : α → Bool) :
    ∀ (l : List α) (t : Nat) (v w : α), l[t]? = some v →
      (l.set t w).countP p + (if p v then 1 else 0) =
        l.countP p + (if p w then 1 else 0)
  | [], t, v, w, h => by simp at h
  | a :: l, 0, v, w, h => by
    simp only [List.getElem?_cons_zero, Option.some.injEq] at h
    subst h
    simp [List.countP_cons]
    omega
  | a :: l, t + 1, v, w, h => by
    simp only [List.getElem?_cons_succ] at h
    have ih := countP_set_add p l t v w h
    simp only [List.set_cons_succ, List.countP_cons]
    omega

theorem countP_almost_all {α} (p : α → Bool) :
    ∀ (l : List α) (t : Nat) (v : α), l[t]? = some v → p v = false →
      l.countP p + 1 = l.length →
      ∀ u w, u ≠ t → l[u]? = some w → p w = true
  | [], t, v, ht, hv, hc, u, w, hu, hw => by simp at ht
  | a :: l, 0, v, ht, hv, hc, u, w, hu, hw => by
    simp only [List.getElem?_cons_zero, Option.some.injEq] at ht
    subst ht
    have hna : ¬p a = true := by simp [hv]
    rw [List.countP_cons_of_neg p l hna, List.length_cons] at hc
    have hall : ∀ x ∈ l, p x = true := List.countP_eq_length.mp (by omega)
    match u with
    | 0 => exact absurd rfl hu
    | u' + 1 =>
      rw [List.getElem?_cons_succ] at hw
      exact hall w (List.getElem?_mem hw)
  | a :: l, t + 1, v, ht, hv, hc, u, w, hu, hw => by
    rw [List.getElem?_cons_succ] at ht
    have hpa : p a = true := by
      by_contra hpa
      rw [Bool.not_eq_true] at hpa
      have hna : ¬p a = true := by simp [hpa]
      rw [List.countP_cons_of_neg p l hna, List.length_cons] at hc
      have hall : ∀ x ∈ l, p x = true := List.countP_eq_length.mp (by omega)
      have hx := hall v (List.getElem?_mem ht)
      rw [hv] at hx
      exact Bool.false_ne_true hx
    match u with
    | 0 =>
      rw [List.getElem?_cons_zero, Option.some.injEq] at hw
      subst hw
      exact hpa
    | u' + 1 =>
      rw [List.getElem?_cons_succ] at hw
      rw [List.countP_cons_of_pos p l hpa, List.length_cons] at hc
      exact countP_almost_all p l t v ht hv (by omega) u' w
        (fun hh => hu (by rw [hh])) hw

theorem inv_init (capacity : Nat) : Inv capacity (initSys capacity) := by
  refine ⟨by simp [initSys], ?_, ?_, ?_, rfl⟩
  · intro t k h
    have hm := List.getElem?_mem h
    simp only [initSys, List.mem_replicate] at hm
    cases hm.2
    rfl
  · intro t k obs h
    have hm := List.getElem?_mem h
    simp only [initSys, List.mem_replicate] at hm
    cases hm.2
  · show (0 : Nat) = _
    rw [eq_comm, List.countP_eq_zero]
    intro a ha
    simp only [initSys, List.mem_replicate] at ha
    cases ha.2
    simp [isCurWaiter]

theorem inv_step {capacity : Nat} {s s' : Sys} (hinv : Inv capacity s)
    (hstep : Step s s') : Inv capacity s' := by
  obtain ⟨hlen, hwork, hwait, hcount, hact⟩ := hinv
  cases hstep with
  | arrive t k hget harr =>
    have ht : t < s.phases.length := (List.getElem?_eq_some_iff.mp hget).1
    have hkgen : k = s.gen := hwork t k hget
    refine ⟨by simpa using hlen, ?_, ?_, ?_, hact⟩
    · intro u k' hu
      by_cases hut : u = t
      · subst hut
        rw [List.getElem?_set_self ht] at hu
        cases hu
      · rw [List.getElem?_set_ne (fun hh => hut hh.symm)] at hu
        exact hwork u k' hu
    · intro u k' obs' hu
      by_cases hut : u = t
      · subst hut
        rw [List.getElem?_set_self ht] at hu
        cases hu
        exact ⟨hkgen.symm, Or.inl hkgen⟩
      · rw [List.getElem?_set_ne (fun hh => hut hh.symm)] at hu
        exact hwait u k' obs' hu
    · show s.arrived + 1 =
        (s.phases.set t (Phase.waiting k s.gen)).countP (isCurWaiter s.gen)
      have hadd := countP_set_add (isCurWaiter s.gen) s.phases t
        (Phase.working k) (Phase.waiting k s.gen) hget
      have hw : isCurWaiter s.gen (Phase.working k) = false := rfl
      have hw2 : isCurWaiter s.gen (Phase.waiting k s.gen) = true := by
        simp [isCurWaiter, hkgen]
      rw [hw, hw2] at hadd
      simp at hadd
      omega
  | lastArrive t k hget harr =>
    have ht : t < s.phases.length := (List.getElem?_eq_some_iff.mp hget).1
    have hkgen : k = s.gen := hwork t k hget
    have hvfalse : isCurWaiter s.gen (Phase.working k) = false := rfl
    have hall := countP_almost_all (isCurWaiter s.gen) s.phases t
      (Phase.working k) hget hvfalse (by omega)
    refine ⟨by simpa using hlen, ?_, ?_, ?_, ?_⟩
    · intro u k' hu
      by_cases hut : u = t
      · subst hut
        rw [List.getElem?_set_self ht] at hu
        cases hu
        show k + 1 = s.gen + 1
        omega
      · rw [List.getElem?_set_ne (fun hh => hut hh.symm)] at hu
        have := hall u (Phase.working k') hut hu
        simp [isCurWaiter] at this
    · intro u k' obs' hu
      by_cases hut : u = t
      · subst hut
        rw [List.getElem?_set_self ht] at hu
        cases hu
      · rw [List.getElem?_set_ne (fun hh => hut hh.symm)] at hu
        have hcur := hall u (Phase.waiting k' obs') hut hu
        simp only [isCurWaiter, decide_eq_true_eq] at hcur
        have := hwait u k' obs' hu
        exact ⟨this.1, Or.inr (show k' + 1 = s.gen + 1 by omega)⟩
    · show (0 : Nat) = _
      rw [eq_comm, List.countP_eq_zero]
      intro a ha
      rw [List.mem_iff_getElem?] at ha
      obtain ⟨u, hu⟩ := ha
      by_cases hut : u = t
      · subst hut
        rw [List.getElem?_set_self ht] at hu
        cases hu
        simp [isCurWaiter]
      · rw [List.getElem?_set_ne (fun hh => hut hh.symm)] at hu
        cases a with
        | working k' => simp [isCurWaiter]
        | waiting k' obs' =>
          have := hwait u k' obs' hu
          simp only [isCurWaiter, decide_eq_true_eq]
          omega
    · show s.actions + 1 = s.gen + 1
      omega
  | release t k obs hget hne =>
    have ht : t < s.phases.length := (List.getElem?_eq_some_iff.mp hget).1
    have hw := hwait t k obs hget
    have hk1 : k + 1 = s.gen := by
      rcases hw.2 with h | h
      · exact absurd (hw.1.trans h) hne
      · exact h
    refine ⟨by simpa using hlen, ?_, ?_, ?_, hact⟩
    · intro u k' hu
      by_cases hut : u = t
      · subst hut
        rw [List.getElem?_set_self ht] at hu
        cases hu
        exact hk1
      · rw [List.getElem?_set_ne (fun hh => hut hh.symm)] at hu
        exact hwork u k' hu
    · intro u k' obs' hu
      by_cases hut : u = t
      · subst hut
        rw [List.getElem?_set_self ht] at hu
        cases hu
      · rw [List.getElem?_set_ne (fun hh => hut hh.symm)] at hu
        exact hwait u k' obs' hu
    · show s.arrived =
        (s.phases.set t (Phase.working (k + 1))).countP (isCurWaiter s.gen)
      have hadd := countP_set_add (isCurWaiter s.gen) s.phases t
        (Phase.waiting k obs) (Phase.working (k + 1)) hget
      have hv : isCurWaiter s.gen (Phase.waiting k obs) = false := by
        simp only [isCurWaiter, decide_eq_false_iff_not]
        omega
      have hw2 : isCurWaiter s.gen (Phase.working (k + 1)) = false := rfl
      rw [hv, hw2] at hadd
      simp at hadd
      omega

/-- Claim C4 (spec-modelled): for every reachable state of the
generation-keyed barrier, (1) the invariant holds — in particular no
participant is ever past cycle `k` unless the generation, and with it
exactly one last-arriver action execution per cycle, has advanced past
`k`, and `arrived` counts exactly the participants waiting for the
current cycle, so an arrival for the next cycle can never corrupt the
current cycle's count; (2) the generation advances only through a final
arrival in which all `capacity` participants have arrived (`arrived + 1
= capacity`) and the last-arriver action runs; and (3) a participant
waiting for the current cycle stays waiting under every step that does
not complete the cycle. -/
theorem barrier_cycle_safety (capacity : Nat) (s : Sys)
    (h : Reachable capacity s) :
    Inv capacity s ∧
    (∀ s' : Sys, Step s s' → s'.gen = s.gen + 1 →
      s.arrived + 1 = capacity ∧ s'.actions = s.actions + 1) ∧
    (∀ (t k obs : Nat) (s' : Sys), s.phases[t]? = some (Phase.waiting k obs) →
      k = s.gen → Step s s' →
      s'.phases[t]? = some (Phase.waiting k obs) ∨ s'.gen = s.gen + 1) := by
  have hinv : Inv capacity s := by
    induction h with
    | init => exact inv_init capacity
    | step s1 s2 hr hst ih => exact inv_step ih hst
  obtain ⟨hlen, hwork, hwait, hcount, hact⟩ := hinv
  refine ⟨⟨hlen, hwork, hwait, hcount, hact⟩, ?_, ?_⟩
  · intro s' hst hgen
    cases hst with
    | arrive t k hget harr =>
      change s.gen = s.gen + 1 at hgen
      omega
    | lastArrive t k hget harr =>
      exact ⟨by rw [← hlen]; exact harr, rfl⟩
    | release t k obs hget hne =>
      change s.gen = s.gen + 1 at hgen
      omega
  · intro t k obs s' hget hk hst
    cases hst with
    | arrive u k' hget' harr =>
      left
      by_cases hut : t = u
      · subst hut
        rw [hget] at hget'
        cases hget'
      · show (List.set _ u _)[t]? = _
        rw [List.getElem?_set_ne (fun hh => hut hh.symm)]
        exact hget
    | lastArrive u k' hget' harr => right; rfl
    | release u k' obs' hget' hne =>
      left
      by_cases hut : t = u
      · subst hut
        rw [hget] at hget'
        cases hget'
        have hobs : obs = k := (hwait t k obs hget).1
        exact absurd (hobs.trans hk) hne
      · show (List.set _ u _)[t]? = _
        rw [List.getElem?_set_ne (fun hh => hut hh.symm)]
        exact hget

/-- Claim C4 witness: the safety conclusions evaluated at the state a
two-participant barrier reaches after one complete cycle (one arrival,
the final arrival running the action, one release). -/
theorem barrier_cycle_safety_witness :
    Inv 2 ⟨1, 0, 1, [Phase.working 1, Phase.working 1]⟩ ∧
    (∀ s' : Sys, Step ⟨1, 0, 1, [Phase.working 1, Phase.working 1]⟩ s' →
      s'.gen = (⟨1, 0, 1, [Phase.working 1, Phase.working 1]⟩ : Sys).gen + 1 →
      (⟨1, 0, 1, [Phase.working 1, Phase.working 1]⟩ : Sys).arrived + 1 = 2 ∧
      s'.actions =
        (⟨1, 0, 1, [Phase.working 1, Phase.working 1]⟩ : Sys).actions + 1) ∧
    (∀ (t k obs : Nat) (s' : Sys),
      (⟨1, 0, 1, [Phase.working 1, Phase.working 1]⟩ : Sys).phases[t]? =
        some (Phase.waiting k obs) →
      k = (⟨1, 0, 1, [Phase.working 1, Phase.working 1]⟩ : Sys).gen →
      Step ⟨1, 0, 1, [Phase.working 1, Phase.working 1]⟩ s' →
      s'.phases[t]? = some (Phase.waiting k obs) ∨
      s'.gen = (⟨1, 0, 1, [Phase.working 1, Phase.working 1]⟩ : Sys).gen + 1) := by
  have h1 : Reachable 2 ⟨0, 1, 0, [Phase.waiting 0 0, Phase.working 0]⟩ :=
    Reachable.step _ _ Reachable.init
      (Step.arrive (initSys 2) 0 0 (by decide) (by decide))
  have h2 : Reachable 2 ⟨1, 0, 1, [Phase.waiting 0 0, Phase.working 1]⟩ :=
    Reachable.step _ _ h1
      (Step.lastArrive ⟨0, 1, 0, [Phase.waiting 0 0, Phase.working 0]⟩ 1 0
        (by decide) (by decide))
  have h3 : Reachable 2 ⟨1, 0, 1, [Phase.working 1, Phase.working 1]⟩ :=
    Reachable.step _ _ h2
      (Step.release ⟨1, 0, 1, [Phase.waiting 0 0, Phase.working 1]⟩ 0 0 0
        (by decide) (by decide))
  exact barrier_cycle_safety 2 ⟨1, 0, 1, [Phase.working 1, Phase.working 1]⟩ h3

end BarrierModel
